import Mathlib

/-!
A shallow embedding of the TimeSheet application's core logic
(time utilities, entry validation, session engine, entry store,
aggregation/report engine, bulk line parser), together with theorems
checking the specification's claims against the embedded code.

Modelling conventions:
* JavaScript numbers are modelled as `ℚ` (minute durations, which the
  source stores as doubles) or `Int` (epoch milliseconds); machine
  floating-point rounding is out of scope of the model.
* JavaScript strings are modelled as `String`, with character-level
  processing carried out on `List Char`.
* JavaScript objects used as string-keyed maps are modelled as ordered
  association lists (`List (String × α)`), matching the insertion-order
  key iteration of JS objects.
* `Array.prototype.sort` (stable since ES2019) is modelled by the stable
  insertion sort `sortBy`.
-/

namespace TimeSheet

/-- Whitespace characters recognised by `String.prototype.trim` (ASCII subset). -/
def isJsWs (c : Char) : Bool :=
  c = ' ' || c = '\t' || c = '\n' || c = '\r'

/-- JS `String.prototype.trim`: drop whitespace from both ends. -/
def trimChars (l : List Char) : List Char :=
  ((l.dropWhile isJsWs).reverse.dropWhile isJsWs).reverse

/-- JS `String.prototype.split` with a single-character separator. -/
def splitCh (sep : Char) : List Char → List (List Char)
  | [] => [[]]
  | c :: t =>
    let r := splitCh sep t
    if c = sep then [] :: r
    else
      match r with
      | [] => [[c]]
      | h :: rt => (c :: h) :: rt

/-- Numeric value of a decimal digit character. -/
def digitVal (c : Char) : Option Nat :=
  if '0' ≤ c && c ≤ '9' then some (c.toNat - 48) else none

def natOfDigitsAux : List Char → Nat → Option Nat
  | [], acc => some acc
  | c :: t, acc =>
    match digitVal c with
    | some d => natOfDigitsAux t (acc * 10 + d)
    | none => none

/-- Parse a non-empty all-digits character list as a decimal numeral. -/
def natOfDigits (l : List Char) : Option Nat :=
  if l.isEmpty then none else natOfDigitsAux l 0

/-- Models `new Date("2000-01-01T" ++ s)` for an `HH:mm` time-of-day string:
returns minutes after midnight when `s` is a valid two-digit `HH:mm`
(hour 00–23, minute 00–59), and `none` (JS Invalid Date / `NaN`) otherwise. -/
def parseHHMM (s : String) : Option Nat :=
  match splitCh ':' s.toList with
  | [h, m] =>
    if h.length = 2 && m.length = 2 then
      match natOfDigits h, natOfDigits m with
      | some hv, some mv =>
        if hv ≤ 23 && mv ≤ 59 then some (hv * 60 + mv) else none
      | _, _ => none
    else none
  | _ => none

/-- JS `Math.max` on two (non-NaN) numbers, kept kernel-computable. -/
def jsMax (a b : ℚ) : ℚ :=
  if a ≤ b then b else a

theorem jsMax_eq_max (a b : ℚ) : jsMax a b = max a b :=
  (max_def a b).symm

/-- `getDurationMinutes` (src/unnamed/part_001 lines 96–108): difference of
the two parsed times in minutes, minus 30 if `lunch30`, floored at 0;
0 if either time fails to parse. -/
def getDurationMinutes (clockIn clockOut : String) (lunch30 : Bool) : ℚ :=
  match parseHHMM clockIn, parseHHMM clockOut with
  | some s, some e =>
    let diffMins : ℚ := (((e : Nat) : ℚ) - ((s : Nat) : ℚ)) - (if lunch30 then 30 else 0)
    jsMax 0 diffMins
  | _, _ => 0

example : parseHHMM "08:00" = some 480 := by decide
example : parseHHMM "17:00" = some 1020 := by decide
example : parseHHMM "8:00" = none := by decide
example : parseHHMM "" = none := by decide
example : getDurationMinutes "08:00" "17:00" true = 510 := by
  have h1 : parseHHMM "08:00" = some 480 := by decide
  have h2 : parseHHMM "17:00" = some 1020 := by decide
  unfold getDurationMinutes
  rw [h1, h2]
  show jsMax 0 _ = 510
  unfold jsMax
  norm_num

/-- Claim C1: for any pair of `HH:mm` strings and lunch flag, if both parse
and clock-out is strictly after clock-in then `getDurationMinutes` equals
the raw minute difference minus 30 when lunch is set, floored at 0, and is
nonnegative; if either string is unparseable the result is 0. -/
theorem claim_C1 (cin cout : String) (lunch : Bool) :
    (∀ a b : Nat, parseHHMM cin = some a → parseHHMM cout = some b → a < b →
        getDurationMinutes cin cout lunch
          = max 0 (((b : ℚ) - (a : ℚ)) - (if lunch then 30 else 0)) ∧
        (0 : ℚ) ≤ getDurationMinutes cin cout lunch) ∧
    (parseHHMM cin = none ∨ parseHHMM cout = none →
        getDurationMinutes cin cout lunch = 0) := by
  constructor
  · intro a b ha hb _
    constructor
    · unfold getDurationMinutes
      rw [ha, hb]
      exact jsMax_eq_max 0 _
    · unfold getDurationMinutes
      rw [ha, hb]
      show (0 : ℚ) ≤ jsMax 0 _
      rw [jsMax_eq_max]
      exact le_max_left 0 _
  · intro h
    unfold getDurationMinutes
    rcases h with h | h
    · rw [h]
    · rw [h]
      cases parseHHMM cin <;> rfl

theorem claim_C1_witness :
    getDurationMinutes "08:00" "17:00" true
        = max 0 ((((1020 : Nat) : ℚ) - ((480 : Nat) : ℚ)) - (if true then 30 else 0)) ∧
    (0 : ℚ) ≤ getDurationMinutes "08:00" "17:00" true :=
  (claim_C1 "08:00" "17:00" true).1 480 1020 (by decide) (by decide) (by decide)

/-- JS `Math.abs`, kept kernel-computable. -/
def jsAbs (q : ℚ) : ℚ :=
  if q < 0 then -q else q

theorem jsAbs_eq_abs (q : ℚ) : jsAbs q = |q| := by
  unfold jsAbs
  rcases lt_or_le q 0 with h | h
  · rw [if_pos h, abs_of_neg h]
  · rw [if_neg (not_lt.mpr h), abs_of_nonneg h]

/-- JS `String.prototype.padStart(2, "0")`. -/
def padStart2 (s : String) : String :=
  if s.length ≥ 2 then s else String.mk (List.replicate (2 - s.length) '0') ++ s

/-- `formatMinutesToHMM` (src/unnamed/part_001 lines 68–74).
`Math.floor` of the nonnegative value `Math.abs totalMinutes` is computed
as `num.toNat / den`, which agrees with the mathematical floor there. -/
def formatMinutesToHMM (totalMinutes : ℚ) : String :=
  let absMinutes : Nat := (jsAbs totalMinutes).num.toNat / (jsAbs totalMinutes).den
  let hours := absMinutes / 60
  let mins := absMinutes % 60
  (if totalMinutes < 0 then "-" else "") ++ toString hours ++ ":" ++ padStart2 (toString mins)

/-- Truncation toward zero of a rational, as the spec words it
("fractional minutes are truncated toward zero"). -/
def truncTowardZero (q : ℚ) : Int :=
  if 0 ≤ q then ⌊q⌋ else ⌈q⌉

/-- The formatting the spec describes for `minutesToHoursString`: truncate
the fractional minutes toward zero, format the magnitude as H:MM with
two-digit zero-padded minutes, and prefix a single minus sign exactly for
negative input. -/
def formatHMM_spec (m : ℚ) : String :=
  let t : Nat := (truncTowardZero m).natAbs
  (if m < 0 then "-" else "") ++ toString (t / 60) ++ ":" ++ padStart2 (toString (t % 60))

theorem floorNat_of_nonneg (r : ℚ) (h : 0 ≤ r) : r.num.toNat / r.den = (⌊r⌋).natAbs := by
  have hnum : 0 ≤ r.num := Rat.num_nonneg.mpr h
  have h4 : ((r.num.toNat : ℤ) : ℚ) = ((r.num : ℤ) : ℚ) := by
    rw [Int.toNat_of_nonneg hnum]
  have h2 : ((r.num.toNat : ℚ)) / ((r.den : ℚ)) = r := by
    calc ((r.num.toNat : ℚ)) / ((r.den : ℚ))
        = ((r.num : ℚ)) / ((r.den : ℚ)) := by rw [← Int.cast_natCast (R := ℚ), h4]
      _ = r := Rat.num_div_den r
  have h5 : ⌊r⌋ = ((r.num.toNat / r.den : Nat) : Int) := by
    conv_lhs => rw [← h2]
    exact Rat.floor_natCast_div_natCast _ _
  rw [h5, Int.natAbs_ofNat]

theorem absFloor_eq_natAbs_trunc (q : ℚ) :
    (jsAbs q).num.toNat / (jsAbs q).den = (truncTowardZero q).natAbs := by
  unfold jsAbs truncTowardZero
  rcases lt_or_le q 0 with h | h
  · rw [if_pos h, if_neg (not_le.mpr h)]
    have h2 : (0 : ℚ) ≤ -q := by linarith
    rw [floorNat_of_nonneg (-q) h2, Int.floor_neg, Int.natAbs_neg]
  · rw [if_neg (not_lt.mpr h), if_pos h]
    exact floorNat_of_nonneg q h

/-- Claim C9: `formatMinutesToHMM` truncates fractional minutes toward zero
and formats the magnitude as H:MM with zero-padded minutes, prefixing a
single minus sign exactly for negative input; in particular 90 ↦ "1:30",
-90 ↦ "-1:30", 5 ↦ "0:05". -/
theorem claim_C9 :
    (∀ m : ℚ, formatMinutesToHMM m = formatHMM_spec m) ∧
    formatMinutesToHMM 90 = "1:30" ∧
    formatMinutesToHMM (-90) = "-1:30" ∧
    formatMinutesToHMM 5 = "0:05" := by
  refine ⟨?_, ?_, ?_, ?_⟩
  · intro m
    unfold formatMinutesToHMM formatHMM_spec
    rw [absFloor_eq_natAbs_trunc]
  · decide
  · decide
  · decide

/-- `TimeEntry` (src/unnamed/part_004): a completed work record.
`created_at` is epoch milliseconds; `duration_mins` is a JS double,
modelled as `ℚ`. A TypeScript `Partial<TimeEntry>` is modelled by the
same structure with absent string fields represented as `""` (the
validator treats `undefined` and `""` identically — both are falsy). -/
structure TimeEntry where
  id : String
  person_name : String
  job_name : String
  date : String
  clock_in : String
  clock_out : String
  lunch_30_min : Bool
  notes : String
  created_at : Int
  duration_mins : ℚ
deriving DecidableEq

/-- `validateEntry` (src/unnamed/part_001 lines 80–94): returns `none` when
the entry is valid, otherwise the message of the first failing rule. -/
def validateEntry (e : TimeEntry) : Option String :=
  if e.person_name.isEmpty then some "Worker name is required"
  else if e.date.isEmpty then some "Date is required"
  else if e.clock_in.isEmpty then some "Clock-in time is required"
  else if e.clock_out.isEmpty then some "Clock-out time is required"
  else
    match parseHHMM e.clock_in, parseHHMM e.clock_out with
    | none, _ => some "Invalid clock-in time"
    | some _, none => some "Invalid clock-out time"
    | some s, some t => if t ≤ s then some "Clock-out must be after clock-in" else none

/-- The spec's list of validation rules for an entry, in the spec's fixed
precedence order, each paired with its error message: missing worker name,
missing date, missing clock-in, missing clock-out, unparseable clock-in,
unparseable clock-out, clock-out not strictly after clock-in. -/
def validationRules (e : TimeEntry) : List (Bool × String) :=
  [(e.person_name.isEmpty, "Worker name is required"),
   (e.date.isEmpty, "Date is required"),
   (e.clock_in.isEmpty, "Clock-in time is required"),
   (e.clock_out.isEmpty, "Clock-out time is required"),
   ((parseHHMM e.clock_in).isNone, "Invalid clock-in time"),
   ((parseHHMM e.clock_out).isNone, "Invalid clock-out time"),
   (match parseHHMM e.clock_in, parseHHMM e.clock_out with
    | some s, some t => t ≤ s
    | _, _ => false, "Clock-out must be after clock-in")]

/-- Report the message of the first rule whose flag is set (short-circuit). -/
def firstFailing : List (Bool × String) → Option String
  | [] => none
  | (b, msg) :: rest => if b then some msg else firstFailing rest

/-- Claim C6: the validator returns either valid or exactly the first
failing rule of the spec's fixed precedence list; an entry whose clock-out
equals its clock-in is rejected, as is one whose clock-out parses to a
strictly earlier time than its clock-in. -/
theorem claim_C6 :
    (∀ e : TimeEntry, validateEntry e = firstFailing (validationRules e)) ∧
    (∀ e : TimeEntry, e.clock_out = e.clock_in → validateEntry e ≠ none) ∧
    (∀ (e : TimeEntry) (a b : Nat), parseHHMM e.clock_in = some a →
        parseHHMM e.clock_out = some b → b < a → validateEntry e ≠ none) := by
  refine ⟨?_, ?_, ?_⟩
  · intro e
    unfold validateEntry validationRules
    rcases hp : e.person_name.isEmpty with _ | _ <;>
    rcases hd : e.date.isEmpty with _ | _ <;>
    rcases hci : e.clock_in.isEmpty with _ | _ <;>
    rcases hco : e.clock_out.isEmpty with _ | _ <;>
    rcases h1 : parseHHMM e.clock_in with _ | a <;>
    rcases h2 : parseHHMM e.clock_out with _ | b <;>
    simp [firstFailing, hp, hd, hci, hco, h1, h2]
  · intro e heq
    unfold validateEntry
    rw [heq]
    rcases h1 : parseHHMM e.clock_in with _ | s <;> split_ifs <;> simp [h1]
  · intro e a b h1 h2 hba
    unfold validateEntry
    split_ifs <;> simp [h1, h2, Nat.le_of_lt hba]

theorem claim_C6_witness :
    validateEntry { id := "", person_name := "Ann", job_name := "", date := "2024-01-01",
                    clock_in := "17:00", clock_out := "08:00", lunch_30_min := false,
                    notes := "", created_at := 0, duration_mins := 0 } ≠ none :=
  claim_C6.2.2 _ 1020 480 (by decide) (by decide) (by decide)

/-- Lookup in a JS-object-as-map modelled as an ordered association list. -/
def getKey (k : String) : List (String × α) → Option α
  | [] => none
  | (q, v) :: r => if q = k then some v else getKey k r

/-- JS spread update of a string-keyed object: an existing key keeps its
position and gets the new value; a fresh key is appended (insertion order). -/
def setKey (k : String) (v : α) : List (String × α) → List (String × α)
  | [] => [(k, v)]
  | (q, w) :: r => if q = k then (k, v) :: r else (q, w) :: setKey k v r

/-- JS `delete obj[k]` on a map without duplicate keys. -/
def removeKey (k : String) (m : List (String × α)) : List (String × α) :=
  m.filter (fun kv => kv.1 ≠ k)

theorem getKey_setKey_self (k : String) (v : α) (m : List (String × α)) :
    getKey k (setKey k v m) = some v := by
  induction m with
  | nil => simp [setKey, getKey]
  | cons kv r ih =>
    obtain ⟨a, w⟩ := kv
    by_cases h : a = k
    · simp [setKey, getKey, h]
    · simp [setKey, getKey, h, ih]

theorem getKey_setKey_ne (k q : String) (v : α) (m : List (String × α)) (h : q ≠ k) :
    getKey q (setKey k v m) = getKey q m := by
  have hkq : ¬k = q := fun hh => h hh.symm
  induction m with
  | nil => simp [setKey, getKey, hkq]
  | cons kv r ih =>
    obtain ⟨a, w⟩ := kv
    by_cases hak : a = k
    · subst hak
      simp [setKey, getKey, hkq]
    · by_cases haq : a = q
      · simp [setKey, getKey, hak, haq, h]
      · simp [setKey, getKey, hak, haq, ih]

theorem getKey_removeKey_self (k : String) (m : List (String × α)) :
    getKey k (removeKey k m) = none := by
  induction m with
  | nil => simp [removeKey, getKey]
  | cons kv r ih =>
    obtain ⟨a, w⟩ := kv
    by_cases h : a = k
    · simpa [removeKey, List.filter_cons, h] using ih
    · simpa [removeKey, List.filter_cons, getKey, h] using ih

theorem getKey_removeKey_ne (k q : String) (m : List (String × α)) (h : q ≠ k) :
    getKey q (removeKey k m) = getKey q m := by
  have hkq : ¬k = q := fun hh => h hh.symm
  induction m with
  | nil => simp [removeKey]
  | cons kv r ih =>
    obtain ⟨a, w⟩ := kv
    by_cases hak : a = k
    · simpa [removeKey, List.filter_cons, getKey, hak, hkq] using ih
    · by_cases haq : a = q
      · simp [removeKey, List.filter_cons, getKey, hak, haq, hkq, h]
      · simpa [removeKey, List.filter_cons, getKey, hak, haq] using ih

/-- `ActiveSession` (src/unnamed/part_004): an open work period. -/
structure ActiveSession where
  person_name : String
  job_name : String
  startTime : Int
  accumulatedMsBeforeThisSession : ℚ
deriving DecidableEq

/-- The session-relevant application state of `App` (src/unnamed/part_000):
the Firestore-backed entry list (most-recently-created first) and the
`activeSessions` map keyed by person name. -/
structure AppState where
  entries : List TimeEntry
  activeSessions : List (String × ActiveSession)
deriving DecidableEq

theorem foldl_add_durations (l : List TimeEntry) (a : ℚ) :
    l.foldl (fun acc e => acc + e.duration_mins) a
      = a + (l.map (fun e => e.duration_mins)).sum := by
  induction l generalizing a with
  | nil => simp
  | cons e t ih => simp [ih, add_assoc]

/-- `handleClockIn` (src/unnamed/part_000 lines 147–162). The impure inputs
are passed explicitly: `today` is `getTorontoISODate()` and `now` is
`Date.now()`. -/
def handleClockIn (today : String) (now : Int) (st : AppState) (person job : String) :
    AppState :=
  let accumulatedMinsToday : ℚ :=
    (st.entries.filter (fun e => e.person_name = person ∧ e.date = today)).foldl
      (fun acc e => acc + e.duration_mins) 0
  let newSession : ActiveSession :=
    { person_name := person, job_name := job, startTime := now,
      accumulatedMsBeforeThisSession := accumulatedMinsToday * 60 * 1000 }
  { st with activeSessions := setKey person newSession st.activeSessions }

/-- The `TimeEntry` built by `handleClockOut` (src/unnamed/part_000 lines
172–188). `fmtStart` models formatting an epoch instant as Toronto `HH:mm`,
`nowStr` is `getTorontoTimeString()`, `newId` is `crypto.randomUUID()`. -/
def clockOutEntry (fmtStart : Int → String) (today nowStr newId : String) (now : Int)
    (person : String) (session : ActiveSession) : TimeEntry :=
  { id := newId, person_name := person, job_name := session.job_name, date := today,
    clock_in := fmtStart session.startTime, clock_out := nowStr, lunch_30_min := false,
    notes := "Session: " ++ session.job_name, created_at := now,
    duration_mins := ((now : ℚ) - ((session.startTime : Int) : ℚ)) / (1000 * 60) }

/-- `handleClockOut` (src/unnamed/part_000 lines 164–197): no-op without a
session; otherwise emits the clock-out entry into the store (modelled as a
prepend, matching the store's most-recent-first order) and deletes the
person's session. -/
def handleClockOut (fmtStart : Int → String) (today nowStr newId : String) (now : Int)
    (st : AppState) (person : String) : AppState :=
  match getKey person st.activeSessions with
  | none => st
  | some session =>
    { entries := clockOutEntry fmtStart today nowStr newId now person session :: st.entries,
      activeSessions := removeKey person st.activeSessions }

/-- Claim C3: clock-out is a no-op when no session exists; otherwise it
produces exactly one new entry whose duration is `(now - startTime)/60000`
(not clamped below zero) and whose lunch flag is false, and it removes that
person's session while leaving the other persons' sessions unchanged. -/
theorem claim_C3 (fmtStart : Int → String) (today nowStr newId : String) (now : Int)
    (st : AppState) (person : String) :
    (getKey person st.activeSessions = none →
        handleClockOut fmtStart today nowStr newId now st person = st) ∧
    (∀ session, getKey person st.activeSessions = some session →
        (handleClockOut fmtStart today nowStr newId now st person).entries
            = clockOutEntry fmtStart today nowStr newId now person session :: st.entries ∧
        (clockOutEntry fmtStart today nowStr newId now person session).duration_mins
            = ((now : ℚ) - ((session.startTime : Int) : ℚ)) / 60000 ∧
        (clockOutEntry fmtStart today nowStr newId now person session).lunch_30_min = false ∧
        getKey person
            (handleClockOut fmtStart today nowStr newId now st person).activeSessions = none ∧
        (∀ q, q ≠ person →
            getKey q (handleClockOut fmtStart today nowStr newId now st person).activeSessions
              = getKey q st.activeSessions)) := by
  constructor
  · intro h
    unfold handleClockOut
    rw [h]
  · intro session hs
    unfold handleClockOut
    rw [hs]
    refine ⟨rfl, ?_, rfl, getKey_removeKey_self person _, ?_⟩
    · show ((now : ℚ) - ((session.startTime : Int) : ℚ)) / (1000 * 60)
          = ((now : ℚ) - ((session.startTime : Int) : ℚ)) / 60000
      norm_num
    · intro q hq
      exact getKey_removeKey_ne person q _ hq

theorem claim_C3_witness :
    getKey "Ann" (handleClockOut (fun _ => "08:00") "2024-01-02" "09:00" "id9" 1000000
        (AppState.mk [] [("Ann", ActiveSession.mk "Ann" "Roof" 400000 0)])
        "Ann").activeSessions = none :=
  ((claim_C3 (fun _ => "08:00") "2024-01-02" "09:00" "id9" 1000000
      (AppState.mk [] [("Ann", ActiveSession.mk "Ann" "Roof" 400000 0)]) "Ann").2
    (ActiveSession.mk "Ann" "Roof" 400000 0) (by decide)).2.2.2.1

/-- Claim C4: clock-in installs a session for the person whose accumulated
milliseconds equal the sum of same-person same-day stored durations times
60000 and whose start time is `now`; any existing session for that person
is silently overwritten and all other persons' sessions are unchanged. -/
theorem claim_C4 (today : String) (now : Int) (st : AppState) (person job : String) :
    getKey person (handleClockIn today now st person job).activeSessions
        = some (ActiveSession.mk person job now
            (((st.entries.filter (fun e => e.person_name = person ∧ e.date = today)).map
              (fun e => e.duration_mins)).sum * 60000)) ∧
    (∀ q, q ≠ person →
        getKey q (handleClockIn today now st person job).activeSessions
          = getKey q st.activeSessions) ∧
    (handleClockIn today now st person job).entries = st.entries := by
  refine ⟨?_, ?_, ?_⟩
  · dsimp only [handleClockIn]
    rw [getKey_setKey_self]
    have harith :
        (st.entries.filter (fun e => e.person_name = person ∧ e.date = today)).foldl
            (fun acc e => acc + e.duration_mins) 0 * 60 * 1000
          = ((st.entries.filter (fun e => e.person_name = person ∧ e.date = today)).map
              (fun e => e.duration_mins)).sum * 60000 := by
      rw [foldl_add_durations, zero_add, mul_assoc]
      norm_num
    rw [harith]
  · intro q hq
    dsimp only [handleClockIn]
    exact getKey_setKey_ne person q _ st.activeSessions hq
  · rfl

theorem claim_C4_witness :
    getKey "Bob" (handleClockIn "2024-01-02" 5
        { entries := [], activeSessions := [] } "Ann" "Roof").activeSessions
      = getKey "Bob" (AppState.mk [] []).activeSessions :=
  (claim_C4 "2024-01-02" 5 { entries := [], activeSessions := [] } "Ann" "Roof").2.1
    "Bob" (by decide)

/-- Stable insertion into a sorted list: the new element goes after every
existing element `y` with `le y x`. -/
def insertLe (le : α → α → Bool) (x : α) : List α → List α
  | [] => [x]
  | y :: ys => if le y x then y :: insertLe le x ys else x :: y :: ys

/-- Stable sort, modelling `Array.prototype.sort` (stable since ES2019)
under the boolean order `le` induced by a comparator. -/
def sortBy (le : α → α → Bool) (l : List α) : List α :=
  l.foldl (fun acc x => insertLe le x acc) []

theorem insertLe_perm (le : α → α → Bool) (x : α) (ys : List α) :
    (insertLe le x ys).Perm (x :: ys) := by
  induction ys with
  | nil => exact List.Perm.refl _
  | cons y ys ih =>
    by_cases h : le y x
    · rw [insertLe, if_pos h]
      exact (ih.cons y).trans (List.Perm.swap x y ys)
    · rw [insertLe, if_neg h]

theorem foldl_insertLe_perm (le : α → α → Bool) (l : List α) :
    ∀ acc : List α, (l.foldl (fun a x => insertLe le x a) acc).Perm (l ++ acc) := by
  induction l with
  | nil => intro acc; exact List.Perm.refl _
  | cons x t ih =>
    intro acc
    have h1 := ih (insertLe le x acc)
    have h2 : (t ++ insertLe le x acc).Perm (t ++ (x :: acc)) :=
      (insertLe_perm le x acc).append_left t
    exact (h1.trans h2).trans List.perm_middle

theorem sortBy_perm (le : α → α → Bool) (l : List α) : (sortBy le l).Perm l := by
  have h := foldl_insertLe_perm le l []
  simpa [sortBy] using h

theorem mem_sortBy {le : α → α → Bool} {l : List α} {a : α} :
    a ∈ sortBy le l ↔ a ∈ l :=
  (sortBy_perm le l).mem_iff

theorem insertLe_pairwise {le : α → α → Bool} {x : α} {ys : List α}
    (hys : ys.Pairwise (fun a b => le a b = true))
    (htot : ∀ y ∈ ys, le y x = true ∨ le x y = true)
    (htr : ∀ y ∈ ys, ∀ z ∈ ys, le x y = true → le y z = true → le x z = true) :
    (insertLe le x ys).Pairwise (fun a b => le a b = true) := by
  induction ys with
  | nil => simp [insertLe]
  | cons y ys ih =>
    rw [List.pairwise_cons] at hys
    obtain ⟨hy, hys2⟩ := hys
    by_cases h : le y x = true
    · rw [insertLe, if_pos h, List.pairwise_cons]
      constructor
      · intro b hb
        rcases List.mem_cons.mp (((insertLe_perm le x ys).mem_iff).mp hb) with hb | hb
        · rw [hb]; exact h
        · exact hy b hb
      · exact ih hys2 (fun z hz => htot z (List.mem_cons_of_mem y hz))
          (fun z hz w hw => htr z (List.mem_cons_of_mem y hz) w (List.mem_cons_of_mem y hw))
    · have hxy : le x y = true := by
        rcases htot y (List.mem_cons_self y ys) with h2 | h2
        · exact absurd h2 h
        · exact h2
      rw [insertLe, if_neg h, List.pairwise_cons]
      constructor
      · intro b hb
        rcases List.mem_cons.mp hb with hb | hb
        · rw [hb]; exact hxy
        · exact htr y (List.mem_cons_self y ys) b (List.mem_cons_of_mem y hb) hxy (hy b hb)
      · rw [List.pairwise_cons]
        exact ⟨hy, hys2⟩

theorem sortBy_aux {le : α → α → Bool} {S : List α}
    (htot : ∀ a ∈ S, ∀ b ∈ S, le a b = true ∨ le b a = true)
    (htr : ∀ a ∈ S, ∀ b ∈ S, ∀ c ∈ S, le a b = true → le b c = true → le a c = true) :
    ∀ l acc : List α, (∀ a ∈ l, a ∈ S) → (∀ a ∈ acc, a ∈ S) →
      acc.Pairwise (fun a b => le a b = true) →
      (l.foldl (fun a x => insertLe le x a) acc).Pairwise (fun a b => le a b = true) := by
  intro l
  induction l with
  | nil => intro acc _ _ hpw; exact hpw
  | cons x t ih =>
    intro acc hl hacc hpw
    have hxS : x ∈ S := hl x (List.mem_cons_self x t)
    have hacc2 : ∀ a ∈ insertLe le x acc, a ∈ S := by
      intro a ha
      rcases List.mem_cons.mp (((insertLe_perm le x acc).mem_iff).mp ha) with ha | ha
      · rw [ha]; exact hxS
      · exact hacc a ha
    have hpw2 : (insertLe le x acc).Pairwise (fun a b => le a b = true) :=
      insertLe_pairwise hpw
        (fun y hy => htot y (hacc y hy) x hxS)
        (fun y hy z hz hxyr hyz => htr x hxS y (hacc y hy) z (hacc z hz) hxyr hyz)
    exact ih (insertLe le x acc) (fun a ha => hl a (List.mem_cons_of_mem x ha)) hacc2 hpw2

theorem sortBy_pairwise {le : α → α → Bool} {l : List α}
    (htot : ∀ a ∈ l, ∀ b ∈ l, le a b = true ∨ le b a = true)
    (htr : ∀ a ∈ l, ∀ b ∈ l, ∀ c ∈ l, le a b = true → le b c = true → le a c = true) :
    (sortBy le l).Pairwise (fun a b => le a b = true) :=
  sortBy_aux htot htr l [] (fun _ ha => ha) (fun b hb => absurd hb (List.not_mem_nil b))
    List.Pairwise.nil

/-- The JS default `Array.prototype.sort` comparator for strings:
lexicographic code-unit order. -/
def strLe (a b : String) : Bool :=
  decide (a ≤ b)

/-- `addPerson` (src/unnamed/part_000 lines 139–141): ignore an empty or
already-present name, otherwise append the name and sort. -/
def addPerson (people : List String) (name : String) : List String :=
  if !name.isEmpty && !(decide (name ∈ people)) then sortBy strLe (people ++ [name])
  else people

/-- `addJob` (src/unnamed/part_000 lines 143–145): same behaviour as
`addPerson`, on the jobs registry. -/
def addJob (jobs : List String) (name : String) : List String :=
  if !name.isEmpty && !(decide (name ∈ jobs)) then sortBy strLe (jobs ++ [name])
  else jobs

/-- Claim C10: `addPerson` and `addJob` leave the registry unchanged on an
empty or duplicate name; on a fresh non-empty name they produce exactly the
previous list plus that name, sorted ascending, and preserve freedom from
duplicates. -/
theorem claim_C10 (people : List String) (name : String) :
    (name = "" → addPerson people name = people ∧ addJob people name = people) ∧
    (name ∈ people → addPerson people name = people ∧ addJob people name = people) ∧
    (name ≠ "" → name ∉ people →
        (addPerson people name).Perm (people ++ [name]) ∧
        (addPerson people name).Pairwise (fun a b => a ≤ b) ∧
        (people.Nodup → (addPerson people name).Nodup) ∧
        addJob people name = addPerson people name) := by
  refine ⟨?_, ?_, ?_⟩
  · intro h
    subst h
    exact ⟨rfl, rfl⟩
  · intro h
    constructor
    · simp [addPerson, h]
    · simp [addJob, h]
  · intro hne hmem
    have hemp : name.isEmpty = false := by
      rcases he : name.isEmpty with _ | _
      · rfl
      · exact absurd ((String.isEmpty_iff name).mp he) hne
    have hcond : addPerson people name = sortBy strLe (people ++ [name]) := by
      simp [addPerson, hemp, hmem]
    have htot : ∀ a ∈ people ++ [name], ∀ b ∈ people ++ [name],
        strLe a b = true ∨ strLe b a = true := by
      intro a _ b _
      rcases le_total a b with h | h
      · exact Or.inl (by simpa [strLe] using h)
      · exact Or.inr (by simpa [strLe] using h)
    have htr : ∀ a ∈ people ++ [name], ∀ b ∈ people ++ [name], ∀ c ∈ people ++ [name],
        strLe a b = true → strLe b c = true → strLe a c = true := by
      intro a _ b _ c _ hab hbc
      simp only [strLe, decide_eq_true_eq] at hab hbc ⊢
      exact le_trans hab hbc
    refine ⟨?_, ?_, ?_, ?_⟩
    · rw [hcond]
      exact sortBy_perm strLe (people ++ [name])
    · rw [hcond]
      have hpw := sortBy_pairwise htot htr
      exact hpw.imp (fun h => by simpa [strLe] using h)
    · intro hnd
      rw [hcond, (sortBy_perm strLe (people ++ [name])).nodup_iff]
      rw [List.nodup_append]
      refine ⟨hnd, List.nodup_singleton name, ?_⟩
      intro a ha hb
      rw [List.mem_singleton] at hb
      exact hmem (hb ▸ ha)
    · rw [hcond]
      simp [addJob, hemp, hmem]

theorem claim_C10_witness :
    (addPerson ["Alice"] "Bob").Perm (["Alice"] ++ ["Bob"]) :=
  ((claim_C10 ["Alice"] "Bob").2.2 (by decide) (by decide)).1

/-- `removeEntry`'s net effect on the entry store (src/unnamed/part_000
lines 133–136): delete the entry with the given id. -/
def removeEntryById (entries : List TimeEntry) (id : String) : List TimeEntry :=
  entries.filter (fun e => e.id ≠ id)

/-- `approveEntries` (src/unnamed/part_000 lines 211–214): one per-id
delete for every id in the approval set. -/
def approveEntries (entries : List TimeEntry) (ids : List String) : List TimeEntry :=
  ids.foldl removeEntryById entries

/-- Claim C8: approval removes exactly the entries whose id is in the given
set, keeps every other entry unchanged, and is insensitive to the order in
which the per-id removals are issued. -/
theorem claim_C8 (entries : List TimeEntry) (ids : List String) :
    approveEntries entries ids = entries.filter (fun e => e.id ∉ ids) ∧
    (∀ ids2 : List String, ids.Perm ids2 →
        approveEntries entries ids = approveEntries entries ids2) := by
  have hmain : ∀ (ids : List String) (entries : List TimeEntry),
      approveEntries entries ids = entries.filter (fun e => e.id ∉ ids) := by
    intro ids
    induction ids with
    | nil => intro entries; simp [approveEntries]
    | cons i t ih =>
      intro entries
      have h1 : approveEntries entries (i :: t) = approveEntries (removeEntryById entries i) t :=
        rfl
      rw [h1, ih, removeEntryById, List.filter_filter]
      apply List.filter_congr
      intro e _
      by_cases hi : e.id = i <;> by_cases ht : e.id ∈ t <;> simp [hi, ht]
  constructor
  · exact hmain ids entries
  · intro ids2 hperm
    rw [hmain ids entries, hmain ids2 entries]
    apply List.filter_congr
    intro e _
    by_cases h : e.id ∈ ids
    · simp [h, hperm.mem_iff.mp h]
    · have hn2 : e.id ∉ ids2 := fun hc => h (hperm.mem_iff.mpr hc)
      simp [h, hn2]

theorem claim_C8_witness :
    approveEntries [] ["a", "b"] = approveEntries [] ["b", "a"] :=
  (claim_C8 [] ["a", "b"]).2 ["b", "a"] (List.Perm.swap "b" "a" [])

/-- JS `String.prototype.split` with a character-class separator. -/
def splitPred (p : Char → Bool) : List Char → List (List Char)
  | [] => [[]]
  | c :: t =>
    let r := splitPred p t
    if p c then [] :: r
    else
      match r with
      | [] => [[c]]
      | h :: rt => (c :: h) :: rt

/-- The dash family accepted by the time-range splitter
(regex class of hyphen, en dash, em dash). -/
def isDashChar (c : Char) : Bool :=
  c = '-' || c = '–' || c = '—'

/-- Substring containment on character lists. -/
def hasSubList (needle : List Char) : List Char → Bool
  | [] => needle.isEmpty
  | c :: t => needle.isPrefixOf (c :: t) || hasSubList needle t

/-- The lunch heuristic of `handleParse` (src/components/Dashboard.tsx line
264): the regex `/lunch|break|30|30min|0:30/` tested against the lowercased
raw line — a case-insensitive substring match for any alternative. -/
def hasLunchMarker (line : String) : Bool :=
  let l := line.toList.map Char.toLower
  hasSubList "lunch".toList l || hasSubList "break".toList l || hasSubList "30".toList l ||
    hasSubList "30min".toList l || hasSubList "0:30".toList l

/-- JS `x || "00:00"` applied to a possibly-undefined, possibly-empty
time-range half. -/
def jsOrTime (cs : List Char) : String :=
  if cs.isEmpty then "00:00" else String.mk cs

/-- The per-line formatting error of `handleParse`
(src/components/Dashboard.tsx line 255). -/
def mkFormatError (line : String) : String :=
  "Invalid format: \"" ++ String.mk (line.toList.take 30) ++ "...\""

/-- One line of `handleParse` (src/components/Dashboard.tsx lines 248–284):
split on pipes and trim; fewer than 3 fields is an immediate formatting
error carrying no entry data; otherwise build the candidate entry (job
fixed to "Bulk Import", lunch by the substring heuristic, duration from the
time-utilities duration function) and attach its validation result.
`newId` models `crypto.randomUUID()` and `now` models `Date.now()`. -/
def handleParseLine (newId : String) (now : Int) (line : String) :
    Option TimeEntry × Option String :=
  let parts := (splitCh '|' line.toList).map trimChars
  if parts.length < 3 then
    (none, some (mkFormatError line))
  else
    let name := String.mk (parts.getD 0 [])
    let date := String.mk (parts.getD 1 [])
    let timeRange := parts.getD 2 []
    let hasLunch := hasLunchMarker line
    let pieces := (splitPred isDashChar timeRange).map trimChars
    let clockIn := jsOrTime (pieces.getD 0 [])
    let clockOut := jsOrTime (pieces.getD 1 [])
    let entry : TimeEntry :=
      { id := newId, person_name := name, job_name := "Bulk Import", date := date,
        clock_in := clockIn, clock_out := clockOut, lunch_30_min := hasLunch,
        notes := "Bulk imported line: " ++ line, created_at := now,
        duration_mins := getDurationMinutes clockIn clockOut hasLunch }
    (some entry, validateEntry entry)

/-- `handleParse` (src/components/Dashboard.tsx lines 243–288): split the
pasted text into lines, drop blank lines, and parse each remaining line.
`mkId` supplies the fresh id for each line index. -/
def handleParse (mkId : Nat → String) (now : Int) (input : String) :
    List (Option TimeEntry × Option String) :=
  (((splitCh '\n' input.toList).map String.mk).filter
      (fun l => !(trimChars l.toList).isEmpty)).enum.map
    (fun p => handleParseLine (mkId p.1) now p.2)

/-- `confirmImport` (src/components/Dashboard.tsx lines 290–295): keep
exactly the candidates whose validation error is absent. -/
def confirmImport (results : List (Option TimeEntry × Option String)) :
    List (Option TimeEntry) :=
  (results.filter (fun r => r.2.isNone)).map (fun r => r.1)

theorem bulk_example_duration : getDurationMinutes "08:00" "17:00" true = 510 := by
  have h1 : parseHHMM "08:00" = some 480 := by decide
  have h2 : parseHHMM "17:00" = some 1020 := by decide
  unfold getDurationMinutes
  rw [h1, h2]
  show jsMax 0 _ = 510
  unfold jsMax
  norm_num

/-- Claim C5 counterexample: on the line
"John | 2026-02-01 | 08:00-17:00 | lunch" the single parsed candidate has
`duration_mins = 510`, not 480 as claimed: the raw difference from 08:00 to
17:00 is 540 minutes, and 540 - 30 = 510. -/
theorem claim_C5_counterexample :
    (handleParse (fun _ => "id0") 0 "John | 2026-02-01 | 08:00-17:00 | lunch").map
        (fun r => r.1.map (fun e => e.duration_mins)) = [some 510] ∧
    ((510 : ℚ) ≠ 480) := by
  constructor
  · have hred : (handleParse (fun _ => "id0") 0 "John | 2026-02-01 | 08:00-17:00 | lunch").map
          (fun r => r.1.map (fun e => e.duration_mins))
        = [some (getDurationMinutes "08:00" "17:00" true)] := rfl
    rw [hred, bulk_example_duration]
  · norm_num

/-- Claim C5 (amended): bulk-parsing the single line
"John | 2026-02-01 | 08:00-17:00 | lunch" yields exactly one candidate,
which passes validation, whose lunch flag is detected true by the
case-insensitive substring heuristic, and whose `duration_mins` is
540 - 30 = 510. -/
theorem claim_C5 (mkId : Nat → String) (now : Int) :
    (handleParse mkId now "John | 2026-02-01 | 08:00-17:00 | lunch").map
        (fun r => (r.2, r.1.map (fun e => e.lunch_30_min),
                   r.1.map (fun e => e.duration_mins)))
      = [(none, some true, some 510)] ∧
    hasLunchMarker "John | 2026-02-01 | 08:00-17:00 | lunch" = true := by
  constructor
  · have hred : (handleParse mkId now "John | 2026-02-01 | 08:00-17:00 | lunch").map
          (fun r => (r.2, r.1.map (fun e => e.lunch_30_min),
                     r.1.map (fun e => e.duration_mins)))
        = [(none, some true, some (getDurationMinutes "08:00" "17:00" true))] := rfl
    rw [hred, bulk_example_duration]
  · decide

/-- Claim C7: a line with fewer than 3 pipe-separated fields fails
immediately with a formatting error and yields no candidate entry data; the
confirm step imports exactly the candidates whose validation error is
absent, excluding every failed line. -/
theorem claim_C7 :
    (∀ (newId : String) (now : Int) (line : String),
        ((splitCh '|' line.toList).map trimChars).length < 3 →
        handleParseLine newId now line = (none, some (mkFormatError line))) ∧
    (∀ results : List (Option TimeEntry × Option String),
        (∀ x, x ∈ confirmImport results ↔ ∃ r ∈ results, r.2 = none ∧ r.1 = x) ∧
        (confirmImport results).length = results.countP (fun r => r.2.isNone)) := by
  constructor
  · intro newId now line h
    dsimp only [handleParseLine]
    rw [if_pos h]
  · intro results
    constructor
    · intro x
      constructor
      · intro hx
        rcases List.mem_map.mp hx with ⟨r, hr, hrx⟩
        rcases List.mem_filter.mp hr with ⟨hrmem, hrnone⟩
        exact ⟨r, hrmem, Option.isNone_iff_eq_none.mp hrnone, hrx⟩
      · intro hx
        rcases hx with ⟨r, hrmem, hrnone, hrx⟩
        apply List.mem_map.mpr
        refine ⟨r, List.mem_filter.mpr ⟨hrmem, ?_⟩, hrx⟩
        rw [hrnone]
        rfl
    · simp [confirmImport, List.countP_eq_length_filter]

theorem claim_C7_witness :
    handleParseLine "i" 0 "BadLine" = (none, some (mkFormatError "BadLine")) :=
  claim_C7.1 "i" 0 "BadLine" (by decide)

/-- Days in each month of the proleptic Gregorian calendar, as validated by
JS ISO date-string parsing. -/
def daysInMonth (y m : Nat) : Nat :=
  if m = 1 || m = 3 || m = 5 || m = 7 || m = 8 || m = 10 || m = 12 then 31
  else if m = 4 || m = 6 || m = 9 || m = 11 then 30
  else if (y % 4 = 0 && y % 100 ≠ 0) || y % 400 = 0 then 29
  else 28

/-- Models `new Date(s).getTime()` for an ISO `YYYY-MM-DD` date string.
A valid date yields the key `y * 10000 + m * 100 + d`, which over valid
dates is strictly-monotone-equivalent to the epoch-milliseconds value the
source computes; the source only ever compares these values (order and
equality), so the rescaling is observationally equivalent. An invalid date
yields `none` (JS `NaN`). Lenient non-ISO forms accepted by some engines'
legacy parsers are outside the model. -/
def dateKey (s : String) : Option Nat :=
  match splitCh '-' s.toList with
  | [y, m, d] =>
    if y.length = 4 && m.length = 2 && d.length = 2 then
      match natOfDigits y, natOfDigits m, natOfDigits d with
      | some yv, some mv, some dv =>
        if 1 ≤ mv && mv ≤ 12 && 1 ≤ dv && dv ≤ daysInMonth yv mv then
          some (yv * 10000 + mv * 100 + dv)
        else none
      | _, _, _ => none
    else none
  | _ => none

/-- JS `>=` between two date values, `NaN` (an invalid date) comparing false. -/
def jsGeO : Option Nat → Option Nat → Bool
  | some x, some y => decide (x ≥ y)
  | _, _ => false

/-- JS `<=` between two date values, `NaN` comparing false. -/
def jsLeO : Option Nat → Option Nat → Bool
  | some x, some y => decide (x ≤ y)
  | _, _ => false

/-- The report filter of `reportData` (src/unnamed/part_003 lines 40–46):
person matches when the filter is "All" or equal; each date bound matches
when the bound is empty or the entry's date is within it. -/
def matchesFilters (filterPerson filterDateStart filterDateEnd : String)
    (e : TimeEntry) : Bool :=
  (decide (filterPerson = "All") || decide (e.person_name = filterPerson)) &&
  (filterDateStart.isEmpty || jsGeO (dateKey e.date) (dateKey filterDateStart)) &&
  (filterDateEnd.isEmpty || jsLeO (dateKey e.date) (dateKey filterDateEnd))

def filteredEntries (entries : List TimeEntry) (fp fs fe : String) : List TimeEntry :=
  entries.filter (matchesFilters fp fs fe)

/-- `DailySummary` (src/unnamed/part_003 lines 9–14). -/
structure DailySummary where
  date : String
  duration_mins : ℚ
  job_names : List String
  entryIds : List String
deriving DecidableEq

/-- `PersonReport` (src/unnamed/part_003 lines 16–21). -/
structure PersonReport where
  person_name : String
  dailySummaries : List DailySummary
  totalMins : ℚ
  allIds : List String
deriving DecidableEq

/-- The zero daily bucket created when a (person, date) pair is first seen
(src/unnamed/part_003 lines 55–62). -/
def emptyDay (dt : String) : DailySummary :=
  { date := dt, duration_mins := 0, job_names := [], entryIds := [] }

/-- Push a job name if not already collected (first-seen dedup). -/
def pushNew (js : List String) (j : String) : List String :=
  if j ∈ js then js else js ++ [j]

/-- Fold one entry into its daily bucket (src/unnamed/part_003 lines 64–69):
add the duration, append the id, collect the job name if new. -/
def updDay (e : TimeEntry) (day : DailySummary) : DailySummary :=
  { day with duration_mins := day.duration_mins + e.duration_mins,
             entryIds := day.entryIds ++ [e.id],
             job_names := pushNew day.job_names e.job_name }

/-- JS `map[k] = f(map[k] ?? dflt)` on an insertion-ordered object:
update in place when present, append `(k, f dflt)` when absent. -/
def upsertA (k : String) (f : α → α) (d : α) : List (String × α) → List (String × α)
  | [] => [(k, f d)]
  | (q, v) :: r => if q = k then (q, f v) :: r else (q, v) :: upsertA k f d r

def addEntryToDays (e : TimeEntry) (days : List (String × DailySummary)) :
    List (String × DailySummary) :=
  upsertA e.date (updDay e) (emptyDay e.date) days

def addEntryToMap (e : TimeEntry)
    (pm : List (String × List (String × DailySummary))) :
    List (String × List (String × DailySummary)) :=
  upsertA e.person_name (addEntryToDays e) [] pm

/-- The nested `personMap` built by `reportData` (src/unnamed/part_003
lines 48–70): person name → date → daily bucket, both levels iterated in
insertion order as JS objects are. -/
def buildPersonMap (l : List TimeEntry) : List (String × List (String × DailySummary)) :=
  l.foldl (fun pm e => addEntryToMap e pm) []

/-- Sort order on date strings used by the daily-summary sort
(src/unnamed/part_003 line 73): the comparator is the difference of parsed
date values; a `NaN` comparator result leaves order decisions untouched,
modelled as `true`. -/
def dateLe (a b : String) : Bool :=
  match dateKey a, dateKey b with
  | some x, some y => decide (x ≤ y)
  | _, _ => true

def daySortLe (a b : DailySummary) : Bool :=
  dateLe a.date b.date

/-- Primary collation keys: lowercased code points. -/
def lowerKeys (s : String) : List Nat :=
  s.toList.map (fun c => c.toLower.toNat)

/-- Case-level collation keys: lowercase before uppercase. -/
def caseKeys (s : String) : List Nat :=
  s.toList.map (fun c => if c.isUpper then 1 else 0)

/-- Lexicographic order on key lists. -/
def natListLe : List Nat → List Nat → Bool
  | [], _ => true
  | _ :: _, [] => false
  | a :: as, b :: bs =>
    if a < b then true else if b < a then false else natListLe as bs

/-- Models `a.localeCompare(b) <= 0` for ASCII strings (src/unnamed/part_003
line 85): case-insensitive primary comparison, with lowercase before
uppercase as the case-level tiebreak. -/
def localeLe (a b : String) : Bool :=
  if lowerKeys a = lowerKeys b then natListLe (caseKeys a) (caseKeys b)
  else natListLe (lowerKeys a) (lowerKeys b)

def personSortLe (a b : PersonReport) : Bool :=
  localeLe a.person_name b.person_name

/-- Build one `PersonReport` (src/unnamed/part_003 lines 72–83): sort the
daily buckets by date, total them, and flatten the contributing ids. -/
def mkPersonReport (name : String) (days : List (String × DailySummary)) : PersonReport :=
  let dailySummaries := sortBy daySortLe (days.map (fun kv => kv.2))
  { person_name := name,
    dailySummaries := dailySummaries,
    totalMins := dailySummaries.foldl (fun acc d => acc + d.duration_mins) 0,
    allIds := dailySummaries.flatMap (fun d => d.entryIds) }

/-- `reportData` (src/unnamed/part_003 lines 39–86): filter, group by
person then date, then sort the per-person reports by name. -/
def reportData (entries : List TimeEntry) (fp fs fe : String) : List PersonReport :=
  sortBy personSortLe
    ((buildPersonMap (filteredEntries entries fp fs fe)).map
      (fun kv => mkPersonReport kv.1 kv.2))

/-- Distinct values in first-seen order. -/
def dedupFirstSeen (l : List String) : List String :=
  l.foldl pushNew []

example : dateKey "2024-01-01" = some 20240101 := by decide
example : dateKey "2024-02-30" = none := by decide
example : dateKey "2024-02-29" = some 20240229 := by decide
example : localeLe "Alice" "Bob" = true := by decide
example : localeLe "bob" "Alice" = false := by decide
example : localeLe "alice" "Alice" = true := by decide

def keysOf (m : List (String × α)) : List String :=
  m.map (fun kv => kv.1)

theorem getKey_upsertA_self (k : String) (f : α → α) (d : α) (m : List (String × α)) :
    getKey k (upsertA k f d m) = some (f ((getKey k m).getD d)) := by
  induction m with
  | nil => simp [upsertA, getKey]
  | cons kv r ih =>
    obtain ⟨a, w⟩ := kv
    by_cases h : a = k
    · subst h
      simp [upsertA, getKey]
    · simp [upsertA, getKey, h, ih]

theorem getKey_upsertA_ne (k q : String) (f : α → α) (d : α) (m : List (String × α))
    (h : q ≠ k) : getKey q (upsertA k f d m) = getKey q m := by
  have hkq : ¬k = q := fun hh => h hh.symm
  induction m with
  | nil => simp [upsertA, getKey, hkq]
  | cons kv r ih =>
    obtain ⟨a, w⟩ := kv
    by_cases hak : a = k
    · subst hak
      simp [upsertA, getKey, hkq]
    · by_cases haq : a = q
      · simp [upsertA, getKey, hak, haq, h]
      · simp [upsertA, getKey, hak, haq, ih]

theorem keysOf_upsertA (k : String) (f : α → α) (d : α) (m : List (String × α)) :
    keysOf (upsertA k f d m) = if k ∈ keysOf m then keysOf m else keysOf m ++ [k] := by
  induction m with
  | nil => simp [upsertA, keysOf]
  | cons kv r ih =>
    obtain ⟨a, w⟩ := kv
    by_cases h : a = k
    · subst h
      simp [upsertA, keysOf]
    · have hka : ¬k = a := fun hh => h hh.symm
      by_cases hmem : k ∈ keysOf r
      · rw [upsertA, if_neg h]
        show a :: keysOf (upsertA k f d r) = _
        rw [ih, if_pos hmem]
        have hin : k ∈ keysOf ((a, w) :: r) := List.mem_cons_of_mem _ hmem
        rw [if_pos hin]
        rfl
      · rw [upsertA, if_neg h]
        show a :: keysOf (upsertA k f d r) = _
        rw [ih, if_neg hmem]
        have hnotin : k ∉ keysOf ((a, w) :: r) := by
          intro hc
          rcases List.mem_cons.mp hc with hc | hc
          · exact hka hc
          · exact hmem hc
        rw [if_neg hnotin]
        rfl

theorem nodup_keys_upsertA (k : String) (f : α → α) (d : α) (m : List (String × α))
    (h : (keysOf m).Nodup) : (keysOf (upsertA k f d m)).Nodup := by
  rw [keysOf_upsertA]
  by_cases hmem : k ∈ keysOf m
  · rw [if_pos hmem]; exact h
  · rw [if_neg hmem]
    rw [List.nodup_append]
    exact ⟨h, List.nodup_singleton k, fun a ha hb => hmem ((List.mem_singleton.mp hb) ▸ ha)⟩

theorem getKey_eq_some_of_mem {k : String} {v : α} {m : List (String × α)}
    (hnd : (keysOf m).Nodup) (hm : (k, v) ∈ m) : getKey k m = some v := by
  induction m with
  | nil => exact absurd hm (List.not_mem_nil _)
  | cons kv r ih =>
    obtain ⟨a, w⟩ := kv
    rw [keysOf, List.map_cons, List.nodup_cons] at hnd
    obtain ⟨hna, hnr⟩ := hnd
    rcases List.mem_cons.mp hm with hm1 | hm1
    · have h1 : k = a := congrArg Prod.fst hm1
      have h2 : v = w := congrArg Prod.snd hm1
      subst h1
      subst h2
      simp [getKey]
    · have hk2 : k ∈ keysOf r := List.mem_map.mpr ⟨(k, v), hm1, rfl⟩
      have hak : ¬a = k := fun hh => hna (hh.symm ▸ hk2)
      rw [getKey, if_neg hak]
      exact ih hnr hm1

theorem mem_of_getKey_eq_some {k : String} {v : α} {m : List (String × α)}
    (h : getKey k m = some v) : (k, v) ∈ m := by
  induction m with
  | nil => simp [getKey] at h
  | cons kv r ih =>
    obtain ⟨a, w⟩ := kv
    rw [getKey] at h
    by_cases hak : a = k
    · rw [if_pos hak] at h
      have hv : w = v := Option.some.inj h
      exact List.mem_cons.mpr (Or.inl (by simp [hak, hv]))
    · rw [if_neg hak] at h
      exact List.mem_cons_of_mem _ (ih h)

theorem nodup_keys_personFold (l : List TimeEntry) :
    ∀ pm, (keysOf pm).Nodup →
      (keysOf (l.foldl (fun m e => addEntryToMap e m) pm)).Nodup := by
  induction l with
  | nil => intro pm h; exact h
  | cons e t ih =>
    intro pm h
    exact ih (addEntryToMap e pm) (nodup_keys_upsertA _ _ _ _ h)

theorem nodup_keys_dayFold (l : List TimeEntry) :
    ∀ ds, (keysOf ds).Nodup →
      (keysOf (l.foldl (fun m e => addEntryToDays e m) ds)).Nodup := by
  induction l with
  | nil => intro ds h; exact h
  | cons e t ih =>
    intro ds h
    exact ih (addEntryToDays e ds) (nodup_keys_upsertA _ _ _ _ h)

theorem getKey_personFold (l : List TimeEntry) (p : String) :
    ∀ pm, (getKey p (l.foldl (fun m e => addEntryToMap e m) pm)).getD []
      = (l.filter (fun e => e.person_name = p)).foldl
          (fun ds e => addEntryToDays e ds) ((getKey p pm).getD []) := by
  induction l with
  | nil => intro pm; rfl
  | cons e t ih =>
    intro pm
    rw [List.foldl_cons, ih (addEntryToMap e pm)]
    by_cases hp : e.person_name = p
    · rw [List.filter_cons_of_pos (by simpa using hp), List.foldl_cons]
      have hk : getKey p (addEntryToMap e pm)
          = some (addEntryToDays e ((getKey p pm).getD [])) := by
        rw [addEntryToMap, hp, getKey_upsertA_self]
      rw [hk]
      rfl
    · rw [List.filter_cons_of_neg (by simpa using hp)]
      have hk : getKey p (addEntryToMap e pm) = getKey p pm := by
        rw [addEntryToMap]
        exact getKey_upsertA_ne _ _ _ _ _ (fun hh => hp hh.symm)
      rw [hk]

theorem getKey_dayFold (l : List TimeEntry) (dt : String) :
    ∀ ds, (getKey dt (l.foldl (fun m e => addEntryToDays e m) ds)).getD (emptyDay dt)
      = (l.filter (fun e => e.date = dt)).foldl (fun d e => updDay e d)
          ((getKey dt ds).getD (emptyDay dt)) := by
  induction l with
  | nil => intro ds; rfl
  | cons e t ih =>
    intro ds
    rw [List.foldl_cons, ih (addEntryToDays e ds)]
    by_cases hd : e.date = dt
    · rw [List.filter_cons_of_pos (by simpa using hd), List.foldl_cons]
      have hk : getKey dt (addEntryToDays e ds)
          = some (updDay e ((getKey dt ds).getD (emptyDay dt))) := by
        rw [addEntryToDays, hd, getKey_upsertA_self]
      rw [hk]
      rfl
    · rw [List.filter_cons_of_neg (by simpa using hd)]
      have hk : getKey dt (addEntryToDays e ds) = getKey dt ds := by
        rw [addEntryToDays]
        exact getKey_upsertA_ne _ _ _ _ _ (fun hh => hd hh.symm)
      rw [hk]

theorem getKey_personFold_none (l : List TimeEntry) (p : String) :
    ∀ pm, getKey p (l.foldl (fun m e => addEntryToMap e m) pm) = none ↔
      (getKey p pm = none ∧ (l.filter (fun e => e.person_name = p)) = []) := by
  induction l with
  | nil =>
    intro pm
    simp
  | cons e t ih =>
    intro pm
    rw [List.foldl_cons, ih (addEntryToMap e pm)]
    by_cases hp : e.person_name = p
    · have hk : getKey p (addEntryToMap e pm)
          = some (addEntryToDays e ((getKey p pm).getD [])) := by
        rw [addEntryToMap, hp, getKey_upsertA_self]
      rw [hk, List.filter_cons_of_pos (by simpa using hp)]
      simp
    · have hk : getKey p (addEntryToMap e pm) = getKey p pm := by
        rw [addEntryToMap]
        exact getKey_upsertA_ne _ _ _ _ _ (fun hh => hp hh.symm)
      rw [hk, List.filter_cons_of_neg (by simpa using hp)]

theorem getKey_dayFold_none (l : List TimeEntry) (dt : String) :
    ∀ ds, getKey dt (l.foldl (fun m e => addEntryToDays e m) ds) = none ↔
      (getKey dt ds = none ∧ (l.filter (fun e => e.date = dt)) = []) := by
  induction l with
  | nil =>
    intro ds
    simp
  | cons e t ih =>
    intro ds
    rw [List.foldl_cons, ih (addEntryToDays e ds)]
    by_cases hd : e.date = dt
    · have hk : getKey dt (addEntryToDays e ds)
          = some (updDay e ((getKey dt ds).getD (emptyDay dt))) := by
        rw [addEntryToDays, hd, getKey_upsertA_self]
      rw [hk, List.filter_cons_of_pos (by simpa using hd)]
      simp
    · have hk : getKey dt (addEntryToDays e ds) = getKey dt ds := by
        rw [addEntryToDays]
        exact getKey_upsertA_ne _ _ _ _ _ (fun hh => hd hh.symm)
      rw [hk, List.filter_cons_of_neg (by simpa using hd)]

theorem updFold_date (l : List TimeEntry) :
    ∀ s0 : DailySummary, (l.foldl (fun d e => updDay e d) s0).date = s0.date := by
  induction l with
  | nil => intro s0; rfl
  | cons e t ih => intro s0; rw [List.foldl_cons, ih]; rfl

theorem updFold_duration (l : List TimeEntry) :
    ∀ s0 : DailySummary, (l.foldl (fun d e => updDay e d) s0).duration_mins
      = s0.duration_mins + (l.map (fun e => e.duration_mins)).sum := by
  induction l with
  | nil => intro s0; simp
  | cons e t ih =>
    intro s0
    rw [List.foldl_cons, ih]
    show s0.duration_mins + e.duration_mins + _ = _
    rw [List.map_cons, List.sum_cons, add_assoc]

theorem updFold_ids (l : List TimeEntry) :
    ∀ s0 : DailySummary, (l.foldl (fun d e => updDay e d) s0).entryIds
      = s0.entryIds ++ l.map (fun e => e.id) := by
  induction l with
  | nil => intro s0; simp
  | cons e t ih =>
    intro s0
    rw [List.foldl_cons, ih]
    show s0.entryIds ++ [e.id] ++ _ = _
    rw [List.map_cons, List.append_assoc]
    rfl

theorem updFold_jobs (l : List TimeEntry) :
    ∀ s0 : DailySummary, (l.foldl (fun d e => updDay e d) s0).job_names
      = (l.map (fun e => e.job_name)).foldl pushNew s0.job_names := by
  induction l with
  | nil => intro s0; rfl
  | cons e t ih =>
    intro s0
    rw [List.foldl_cons, ih]
    rfl

/-- Each member of the person map is exactly the day map folded from that
person's filtered entries, and only persons with at least one entry occur. -/
theorem mem_buildPersonMap {fl : List TimeEntry} {p : String}
    {days : List (String × DailySummary)} (hm : (p, days) ∈ buildPersonMap fl) :
    days = (fl.filter (fun e => e.person_name = p)).foldl
        (fun ds e => addEntryToDays e ds) []
      ∧ (fl.filter (fun e => e.person_name = p)) ≠ [] := by
  have hnodup : (keysOf (buildPersonMap fl)).Nodup :=
    nodup_keys_personFold fl [] (by simp [keysOf])
  have hsome : getKey p (buildPersonMap fl) = some days :=
    getKey_eq_some_of_mem hnodup hm
  rw [buildPersonMap] at hsome
  constructor
  · have hfold := getKey_personFold fl p []
    rw [hsome] at hfold
    simpa [getKey] using hfold
  · intro hflt
    have hnone : getKey p (fl.foldl (fun m e => addEntryToMap e m) []) = none := by
      rw [getKey_personFold_none]
      exact ⟨rfl, hflt⟩
    rw [hsome] at hnone
    exact Option.noConfusion hnone

/-- Each member of a day map folded from `[]` is exactly the daily bucket
folded from that date's entries, and only dates with at least one entry
occur. -/
theorem mem_dayMap {l2 : List TimeEntry} {dt : String} {s : DailySummary}
    (hm : (dt, s) ∈ l2.foldl (fun ds e => addEntryToDays e ds) []) :
    s = (l2.filter (fun e => e.date = dt)).foldl (fun d e => updDay e d) (emptyDay dt)
      ∧ (l2.filter (fun e => e.date = dt)) ≠ [] := by
  have hnodup : (keysOf (l2.foldl (fun ds e => addEntryToDays e ds) [])).Nodup :=
    nodup_keys_dayFold l2 [] (by simp [keysOf])
  have hsome : getKey dt (l2.foldl (fun ds e => addEntryToDays e ds) []) = some s :=
    getKey_eq_some_of_mem hnodup hm
  constructor
  · have hfold := getKey_dayFold l2 dt []
    rw [hsome] at hfold
    simpa [getKey] using hfold
  · intro hflt
    have hnone : getKey dt (l2.foldl (fun ds e => addEntryToDays e ds) []) = none := by
      rw [getKey_dayFold_none]
      exact ⟨rfl, hflt⟩
    rw [hsome] at hnone
    exact Option.noConfusion hnone

theorem natListLe_total : ∀ x y : List Nat, natListLe x y = true ∨ natListLe y x = true := by
  intro x
  induction x with
  | nil => intro y; exact Or.inl rfl
  | cons a as ih =>
    intro y
    cases y with
    | nil => exact Or.inr rfl
    | cons b bs =>
      rcases Nat.lt_trichotomy a b with h | h | h
      · exact Or.inl (by simp [natListLe, h])
      · subst h
        rcases ih bs with h2 | h2
        · exact Or.inl (by simp [natListLe, h2])
        · exact Or.inr (by simp [natListLe, h2])
      · exact Or.inr (by simp [natListLe, h])

theorem natListLe_trans : ∀ x y z : List Nat,
    natListLe x y = true → natListLe y z = true → natListLe x z = true := by
  intro x
  induction x with
  | nil => intro y z _ _; rfl
  | cons a as ih =>
    intro y z hxy hyz
    cases y with
    | nil => exact absurd hxy (by simp [natListLe])
    | cons b bs =>
      cases z with
      | nil => exact absurd hyz (by simp [natListLe])
      | cons c cs =>
        rw [natListLe] at hxy hyz ⊢
        rcases Nat.lt_trichotomy a b with hab | hab | hab
        · rcases Nat.lt_trichotomy b c with hbc | hbc | hbc
          · simp [Nat.lt_trans hab hbc]
          · subst hbc
            simp [hab]
          · rw [if_neg (Nat.lt_asymm hbc), if_pos hbc] at hyz
            exact absurd hyz (by simp)
        · subst hab
          rcases Nat.lt_trichotomy a c with hbc | hbc | hbc
          · simp [hbc]
          · subst hbc
            rw [if_neg (Nat.lt_irrefl a), if_neg (Nat.lt_irrefl a)] at hxy hyz ⊢
            exact ih bs cs hxy hyz
          · rw [if_neg (Nat.lt_asymm hbc), if_pos hbc] at hyz
            exact absurd hyz (by simp)
        · rw [if_neg (Nat.lt_asymm hab), if_pos hab] at hxy
          exact absurd hxy (by simp)

theorem natListLe_antisymm : ∀ x y : List Nat,
    natListLe x y = true → natListLe y x = true → x = y := by
  intro x
  induction x with
  | nil =>
    intro y _ hyx
    cases y with
    | nil => rfl
    | cons b bs => exact absurd hyx (by simp [natListLe])
  | cons a as ih =>
    intro y hxy hyx
    cases y with
    | nil => exact absurd hxy (by simp [natListLe])
    | cons b bs =>
      rw [natListLe] at hxy hyx
      rcases Nat.lt_trichotomy a b with hab | hab | hab
      · rw [if_neg (Nat.lt_asymm hab), if_pos hab] at hyx
        exact absurd hyx (by simp)
      · subst hab
        rw [if_neg (Nat.lt_irrefl a), if_neg (Nat.lt_irrefl a)] at hxy hyx
        rw [ih bs hxy hyx]
      · rw [if_neg (Nat.lt_asymm hab), if_pos hab] at hxy
        exact absurd hxy (by simp)

theorem localeLe_total (a b : String) : localeLe a b = true ∨ localeLe b a = true := by
  unfold localeLe
  by_cases h : lowerKeys a = lowerKeys b
  · rw [if_pos h, if_pos h.symm]
    exact natListLe_total _ _
  · rw [if_neg h, if_neg (fun hh => h hh.symm)]
    exact natListLe_total _ _

theorem localeLe_trans (a b c : String) (hab : localeLe a b = true)
    (hbc : localeLe b c = true) : localeLe a c = true := by
  unfold localeLe at hab hbc ⊢
  by_cases h1 : lowerKeys a = lowerKeys b
  · rw [if_pos h1] at hab
    by_cases h2 : lowerKeys b = lowerKeys c
    · rw [if_pos h2] at hbc
      rw [if_pos (h1.trans h2)]
      exact natListLe_trans _ _ _ hab hbc
    · rw [if_neg h2] at hbc
      have h3 : ¬lowerKeys a = lowerKeys c := fun hh => h2 (h1.symm.trans hh)
      rw [if_neg h3, h1]
      exact hbc
  · rw [if_neg h1] at hab
    by_cases h2 : lowerKeys b = lowerKeys c
    · rw [if_pos h2] at hbc
      have h3 : ¬lowerKeys a = lowerKeys c := fun hh => h1 (hh.trans h2.symm)
      rw [if_neg h3, ← h2]
      exact hab
    · rw [if_neg h2] at hbc
      by_cases h3 : lowerKeys a = lowerKeys c
      · exact absurd (natListLe_antisymm _ _ hab (h3 ▸ hbc)) h1
      · rw [if_neg h3]
        exact natListLe_trans _ _ _ hab hbc

theorem personSortLe_total (a b : PersonReport) :
    personSortLe a b = true ∨ personSortLe b a = true :=
  localeLe_total a.person_name b.person_name

theorem personSortLe_trans (a b c : PersonReport) (hab : personSortLe a b = true)
    (hbc : personSortLe b c = true) : personSortLe a c = true :=
  localeLe_trans a.person_name b.person_name c.person_name hab hbc

theorem daySortLe_total (a b : DailySummary) :
    daySortLe a b = true ∨ daySortLe b a = true := by
  unfold daySortLe dateLe
  rcases hx : dateKey a.date with _ | x
  · rcases hy : dateKey b.date with _ | y <;> simp
  · rcases hy : dateKey b.date with _ | y
    · simp
    · simp only [decide_eq_true_eq]
      exact Nat.le_total x y

theorem daySortLe_trans_valid {a b c : DailySummary}
    (hb : (dateKey b.date).isSome = true) (hab : daySortLe a b = true)
    (hbc : daySortLe b c = true) : daySortLe a c = true := by
  unfold daySortLe dateLe at hab hbc ⊢
  rcases hxa : dateKey a.date with _ | x
  · rfl
  · rcases hxb : dateKey b.date with _ | y
    · rw [hxb] at hb
      exact absurd hb (by simp)
    · rcases hxc : dateKey c.date with _ | z
      · rfl
      · rw [hxa, hxb] at hab
        rw [hxb, hxc] at hbc
        simp only [decide_eq_true_eq] at hab hbc ⊢
        exact Nat.le_trans hab hbc

theorem foldl_add_daySum (l : List DailySummary) (a : ℚ) :
    l.foldl (fun acc d => acc + d.duration_mins) a
      = a + (l.map (fun d => d.duration_mins)).sum := by
  induction l generalizing a with
  | nil => simp
  | cons d t ih => simp [ih, add_assoc]

theorem bucket_eq (fl : List TimeEntry) (p dt : String) :
    (fl.filter (fun e => e.person_name = p)).filter (fun e => e.date = dt)
      = fl.filter (fun e => e.person_name = p ∧ e.date = dt) := by
  rw [List.filter_filter]
  apply List.filter_congr
  intro e _
  by_cases h1 : e.person_name = p <;> by_cases h2 : e.date = dt <;> simp [h1, h2]

theorem mem_reportData {entries : List TimeEntry} {fp fs fe : String} {r : PersonReport}
    (hr : r ∈ reportData entries fp fs fe) :
    ∃ p days, (p, days) ∈ buildPersonMap (filteredEntries entries fp fs fe) ∧
      r = mkPersonReport p days := by
  unfold reportData at hr
  rcases List.mem_map.mp (mem_sortBy.mp hr) with ⟨kv, hkv, hmk⟩
  exact ⟨kv.1, kv.2, hkv, hmk.symm⟩

theorem summary_of_mem_days {fl : List TimeEntry} {p : String}
    {days : List (String × DailySummary)}
    (hdays : (p, days) ∈ buildPersonMap fl) {s : DailySummary}
    (hs : s ∈ days.map (fun kv => kv.2)) :
    s = (fl.filter (fun e => e.person_name = p ∧ e.date = s.date)).foldl
        (fun d e => updDay e d) (emptyDay s.date)
      ∧ (fl.filter (fun e => e.person_name = p ∧ e.date = s.date)) ≠ [] := by
  obtain ⟨hfold, _⟩ := mem_buildPersonMap hdays
  rcases List.mem_map.mp hs with ⟨kv, hkv, hsnd⟩
  obtain ⟨dt, s2⟩ := kv
  rw [hfold] at hkv
  rw [show s2 = s from hsnd] at hkv
  obtain ⟨hsum, hne⟩ := mem_dayMap hkv
  have hdate : s.date = dt := by
    rw [hsum, updFold_date]
    rfl
  rw [hdate, ← bucket_eq]
  exact ⟨hsum, hne⟩

theorem summary_date_valid {entries : List TimeEntry} {fp fs fe : String}
    (hvalid : ∀ e ∈ entries, (dateKey e.date).isSome = true)
    {p : String} {days : List (String × DailySummary)}
    (hdays : (p, days) ∈ buildPersonMap (filteredEntries entries fp fs fe)) :
    ∀ s ∈ days.map (fun kv => kv.2), (dateKey s.date).isSome = true := by
  intro s hs
  obtain ⟨_, hne⟩ := summary_of_mem_days hdays hs
  rcases List.exists_mem_of_ne_nil _ hne with ⟨e, he⟩
  obtain ⟨hefl, hep⟩ := List.mem_filter.mp he
  have hdt : e.date = s.date := by
    have := of_decide_eq_true hep
    exact this.2
  have hent : e ∈ entries := (List.mem_filter.mp hefl).1
  rw [← hdt]
  exact hvalid e hent

/-- Example entry: Alice, 2024-01-01, 60 minutes. -/
def exEntry1 : TimeEntry :=
  TimeEntry.mk "id1" "Alice" "Paint" "2024-01-01" "08:00" "09:00" false "" 0 60

/-- Example entry: Alice, 2024-01-01, 30 minutes. -/
def exEntry2 : TimeEntry :=
  TimeEntry.mk "id2" "Alice" "Trim" "2024-01-01" "10:00" "10:30" false "" 0 30

/-- Example entry: Bob, 2024-01-02, 45 minutes. -/
def exEntry3 : TimeEntry :=
  TimeEntry.mk "id3" "Bob" "Paint" "2024-01-02" "08:00" "08:45" false "" 0 45

def exEntries : List TimeEntry := [exEntry1, exEntry2, exEntry3]

/-- Claim C2: `reportData` groups the filtered entries by person then date —
each daily bucket carries the sum of its entries' durations, their ids in
order, and their distinct job names in first-seen order, and every filtered
entry lands in its person's bucket for its date; per-person totals are the
sums of the daily totals; the per-person reports are sorted ascending by
name under the locale comparator, and (for entries with valid dates) each
person's daily summaries are sorted ascending by date. On the spec's
three-entry example it yields Alice before Bob, with Alice's 2024-01-01
bucket summing to 90 minutes over both contributing ids. -/
theorem claim_C2 :
    (∀ (entries : List TimeEntry) (fp fs fe : String),
        (reportData entries fp fs fe).Pairwise (fun a b => personSortLe a b = true)) ∧
    (∀ (entries : List TimeEntry) (fp fs fe : String),
        ∀ r ∈ reportData entries fp fs fe,
          r.totalMins = (r.dailySummaries.map (fun d => d.duration_mins)).sum ∧
          r.allIds = r.dailySummaries.flatMap (fun d => d.entryIds) ∧
          ∀ s ∈ r.dailySummaries,
            s.duration_mins = (((filteredEntries entries fp fs fe).filter
                (fun e => e.person_name = r.person_name ∧ e.date = s.date)).map
                  (fun e => e.duration_mins)).sum ∧
            s.entryIds = ((filteredEntries entries fp fs fe).filter
                (fun e => e.person_name = r.person_name ∧ e.date = s.date)).map
                  (fun e => e.id) ∧
            s.job_names = dedupFirstSeen (((filteredEntries entries fp fs fe).filter
                (fun e => e.person_name = r.person_name ∧ e.date = s.date)).map
                  (fun e => e.job_name)) ∧
            ((filteredEntries entries fp fs fe).filter
                (fun e => e.person_name = r.person_name ∧ e.date = s.date)) ≠ []) ∧
    (∀ (entries : List TimeEntry) (fp fs fe : String),
        ∀ e ∈ filteredEntries entries fp fs fe,
          ∃ r ∈ reportData entries fp fs fe, r.person_name = e.person_name ∧
            ∃ s ∈ r.dailySummaries, s.date = e.date ∧ e.id ∈ s.entryIds) ∧
    (∀ (entries : List TimeEntry) (fp fs fe : String),
        (∀ e ∈ entries, (dateKey e.date).isSome = true) →
        ∀ r ∈ reportData entries fp fs fe,
          r.dailySummaries.Pairwise (fun x y => daySortLe x y = true)) ∧
    ((reportData exEntries "All" "" "").map (fun r => r.person_name) = ["Alice", "Bob"] ∧
     (reportData exEntries "All" "" "").map
        (fun r => r.dailySummaries.map (fun s => (s.date, s.entryIds)))
       = [[("2024-01-01", ["id1", "id2"])], [("2024-01-02", ["id3"])]] ∧
     (reportData exEntries "All" "" "").map
        (fun r => r.dailySummaries.map (fun s => s.duration_mins)) = [[90], [45]] ∧
     (reportData exEntries "All" "" "").map (fun r => r.totalMins) = [90, 45]) := by
  refine ⟨?_, ?_, ?_, ?_, ?_, ?_, ?_, ?_⟩
  · intro entries fp fs fe
    exact sortBy_pairwise
      (fun a _ b _ => personSortLe_total a b)
      (fun a _ b _ c _ => personSortLe_trans a b c)
  · intro entries fp fs fe r hr
    obtain ⟨p, days, hdays, hmk⟩ := mem_reportData hr
    subst hmk
    refine ⟨?_, rfl, ?_⟩
    · show (sortBy daySortLe (days.map (fun kv => kv.2))).foldl
          (fun acc d => acc + d.duration_mins) 0 = _
      rw [foldl_add_daySum, zero_add]
      rfl
    · intro s hs
      have hs2 : s ∈ days.map (fun kv => kv.2) := mem_sortBy.mp hs
      obtain ⟨hsum, hne⟩ := summary_of_mem_days hdays hs2
      have hperson : (mkPersonReport p days).person_name = p := rfl
      rw [hperson]
      refine ⟨?_, ?_, ?_, hne⟩
      · conv_lhs => rw [hsum]
        rw [updFold_duration]
        show (0 : ℚ) + _ = _
        rw [zero_add]
      · conv_lhs => rw [hsum]
        rw [updFold_ids]
        show [] ++ _ = _
        rw [List.nil_append]
      · conv_lhs => rw [hsum]
        rw [updFold_jobs]
        rfl
  · intro entries fp fs fe e he
    have hep : e ∈ (filteredEntries entries fp fs fe).filter
        (fun x => x.person_name = e.person_name) :=
      List.mem_filter.mpr ⟨he, by simp⟩
    have hkeyp : getKey e.person_name
        (buildPersonMap (filteredEntries entries fp fs fe)) ≠ none := by
      intro hcon
      rw [buildPersonMap, getKey_personFold_none] at hcon
      exact (List.eq_nil_iff_forall_not_mem.mp hcon.2) e hep
    rcases hdk : getKey e.person_name
        (buildPersonMap (filteredEntries entries fp fs fe)) with _ | days
    · exact absurd hdk hkeyp
    · have hdays : (e.person_name, days)
          ∈ buildPersonMap (filteredEntries entries fp fs fe) :=
        mem_of_getKey_eq_some hdk
      obtain ⟨hfold, _⟩ := mem_buildPersonMap hdays
      have hed : e ∈ ((filteredEntries entries fp fs fe).filter
          (fun x => x.person_name = e.person_name)).filter
            (fun x => x.date = e.date) :=
        List.mem_filter.mpr ⟨hep, by simp⟩
      have hkeyd : getKey e.date ((( filteredEntries entries fp fs fe).filter
          (fun x => x.person_name = e.person_name)).foldl
            (fun ds x => addEntryToDays x ds) []) ≠ none := by
        intro hcon
        rw [getKey_dayFold_none] at hcon
        exact (List.eq_nil_iff_forall_not_mem.mp hcon.2) e hed
      rcases hdk2 : getKey e.date ((( filteredEntries entries fp fs fe).filter
          (fun x => x.person_name = e.person_name)).foldl
            (fun ds x => addEntryToDays x ds) []) with _ | s
      · exact absurd hdk2 hkeyd
      · have hsmem : (e.date, s) ∈ ((filteredEntries entries fp fs fe).filter
            (fun x => x.person_name = e.person_name)).foldl
              (fun ds x => addEntryToDays x ds) [] :=
          mem_of_getKey_eq_some hdk2
        obtain ⟨hsum, _⟩ := mem_dayMap hsmem
        refine ⟨mkPersonReport e.person_name days, ?_, rfl, s, ?_, ?_, ?_⟩
        · unfold reportData
          apply mem_sortBy.mpr
          exact List.mem_map.mpr ⟨(e.person_name, days), hdays, rfl⟩
        · show s ∈ sortBy daySortLe (days.map (fun kv => kv.2))
          apply mem_sortBy.mpr
          rw [hfold]
          exact List.mem_map.mpr ⟨(e.date, s), hsmem, rfl⟩
        · rw [hsum, updFold_date]
          rfl
        · rw [hsum, updFold_ids]
          apply List.mem_append.mpr
          apply Or.inr
          exact List.mem_map.mpr ⟨e, hed, rfl⟩
  · intro entries fp fs fe hvalid r hr
    obtain ⟨p, days, hdays, hmk⟩ := mem_reportData hr
    subst hmk
    have hval2 := summary_date_valid hvalid hdays
    show (sortBy daySortLe (days.map (fun kv => kv.2))).Pairwise _
    exact sortBy_pairwise
      (fun a _ b _ => daySortLe_total a b)
      (fun a _ b hb c _ hab hbc => daySortLe_trans_valid (hval2 b hb) hab hbc)
  · decide
  · decide
  · have h1 : (reportData exEntries "All" "" "").map
        (fun r => r.dailySummaries.map (fun s => s.duration_mins))
        = [[(0 : ℚ) + 60 + 30], [(0 : ℚ) + 45]] := rfl
    have e90 : (0 : ℚ) + 60 + 30 = 90 := by norm_num
    have e45 : (0 : ℚ) + 45 = 45 := by norm_num
    rw [h1, e90, e45]
  · have h1 : (reportData exEntries "All" "" "").map (fun r => r.totalMins)
        = [(0 : ℚ) + ((0 : ℚ) + 60 + 30), (0 : ℚ) + ((0 : ℚ) + 45)] := rfl
    have e90 : (0 : ℚ) + ((0 : ℚ) + 60 + 30) = 90 := by norm_num
    have e45 : (0 : ℚ) + ((0 : ℚ) + 45) = 45 := by norm_num
    rw [h1, e90, e45]

theorem claim_C2_witness :
    (∃ r ∈ reportData exEntries "All" "" "", r.person_name = exEntry1.person_name ∧
        ∃ s ∈ r.dailySummaries, s.date = exEntry1.date ∧ exEntry1.id ∈ s.entryIds) ∧
    (∀ r ∈ reportData exEntries "All" "" "",
        r.dailySummaries.Pairwise (fun x y => daySortLe x y = true)) :=
  ⟨claim_C2.2.2.1 exEntries "All" "" "" exEntry1 (by decide),
   claim_C2.2.2.2.1 exEntries "All" "" "" (by decide)⟩

end TimeSheet
